import Mathlib

/-!
Shallow embedding of the Intel HEX codec in `src/cmd/HexFile.cpp` (class
`Aseba::HexFile`), together with proofs settling the frozen claims about it.

Modelling conventions:
* machine integers are `Nat` with explicit truncation (`% 256` for `uint8`,
  `% 65536` for `uint16`, `% 4294967296` for `unsigned`/`uint32`);
  the one place the source computes on a possibly negative `int`
  (`getUint4`, whose `stream.get()` can yield `-1` at end of file) uses `Int`
  with the C++ int-to-unsigned conversion made explicit;
* the input character stream is a `List Nat` of character codes plus the
  `eofbit` state flag of `std::istream`; `stream.get()` at end of input
  returns `-1` and sets `eofbit`, and `stream >> c` skips whitespace and
  fails (modelled as `none`) when the input is exhausted, as in C++;
* the member `ChunkMap data` (a `std::map<uint32, std::vector<uint8>>`)
  is a key-sorted association list, threaded explicitly through `read`;
* `throw` is modelled by the `Outcome.err` / `Except.error` constructors;
  the loop in `read` is driven by fuel (`input.length + 1` suffices because
  every iteration that recurses has consumed at least one character).
-/

namespace HexFile

/-- `ChunkMap` = `std::map<uint32, std::vector<uint8>>`: key-sorted list of
(start address, bytes) chunks. -/
abbrev ChunkMap := List (Nat × List Nat)

/-- Truncation to `unsigned` (32-bit). -/
def u32 (n : Nat) : Nat := n % 4294967296

/-- C++ conversion of an `int` expression to `unsigned` (mod 2^32). -/
def u32I (i : Int) : Nat := (i % 4294967296).toNat

/-- An input stream: remaining character codes plus the `eofbit` flag. -/
structure IStr where
  chars : List Nat
  eofbit : Bool
deriving DecidableEq

/-- `istream::get()`: next character code, or `-1` (setting `eofbit`) at end
of input. -/
def sget (s : IStr) : Int × IStr :=
  match s.chars with
  | [] => (-1, ⟨[], true⟩)
  | c :: r => (Int.ofNat c, ⟨r, s.eofbit⟩)

/-- `HexFile::getUint4`: one hex digit, case-insensitive, no validation. -/
def getUint4 (s : IStr) : Nat × IStr :=
  let p := sget s
  let c := p.1
  (if c ≤ 57 then u32I (c - 48)
   else if c ≤ 70 then u32I (c - 65 + 10)
   else u32I (c - 97 + 10), p.2)

/-- `HexFile::getUint8`: `(getUint4(stream) << 4) | getUint4(stream)`. -/
def getUint8 (s : IStr) : Nat × IStr :=
  let p := getUint4 s
  let q := getUint4 p.2
  (u32 (p.1 <<< 4) ||| q.1, q.2)

/-- `HexFile::getUint16`: `(getUint8(stream) << 8) | getUint8(stream)`. -/
def getUint16 (s : IStr) : Nat × IStr :=
  let p := getUint8 s
  let q := getUint8 p.2
  (u32 (p.1 <<< 8) ||| q.1, q.2)

/-- The error kinds thrown by `HexFile::read` (stream-level; the boundary
error `FileOpeningError` concerns opening the file, not the codec). -/
inductive HexError
  | EarlyEOF (line : Nat)
  | InvalidRecord (line : Nat)
  | WrongCheckSum (line recordCheckSum computedCheckSum : Nat)
  | UnknownRecordType (line recordType : Nat)
deriving DecidableEq

/-- Result of processing one record body (after the leading `:`). -/
inductive Outcome
  | err (e : HexError) (m : ChunkMap)
  | eofRecord (m : ChunkMap)
  | next (s : IStr) (baseAddress : Nat) (m : ChunkMap)
deriving DecidableEq

/-- The coalescing scan of `HexFile::read`: walk the chunks in map (= key)
order; if `address == it->first + it->second.size()` append the record data
to that chunk (tail fusion); else if `address + recordData.size() ==
it->first` the record data is copied in front of the existing content — the
map key is left unchanged, exactly as in the source (`resize` +
`copy_backward` + `copy` mutate only the vector). Returns `none` when no
chunk fuses. -/
def fuseScan : ChunkMap → Nat → List Nat → Option ChunkMap
  | [], _, _ => none
  | (k, b) :: rest, address, recordData =>
    if address = k + b.length then
      some ((k, b ++ recordData) :: rest)
    else if address + recordData.length = k then
      some ((k, recordData ++ b) :: rest)
    else
      (fuseScan rest address recordData).map (fun t => (k, b) :: t)

/-- `data[address] = recordData` on the sorted map: insert, or overwrite an
existing entry with the same key. -/
def mapInsert : ChunkMap → Nat → List Nat → ChunkMap
  | [], address, recordData => [(address, recordData)]
  | (k, b) :: rest, address, recordData =>
    if address < k then (address, recordData) :: (k, b) :: rest
    else if address = k then (address, recordData) :: rest
    else (k, b) :: mapInsert rest address recordData

/-- The whole insertion step for a decoded data record: try to fuse with an
existing chunk, else `data[address] = recordData`. -/
def insertRecordData (m : ChunkMap) (address : Nat) (recordData : List Nat) :
    ChunkMap :=
  match fuseScan m address recordData with
  | some m2 => m2
  | none => mapInsert m address recordData

/-- The data-byte loop of the type-0 case: read `dataLength` bytes, pushing
each onto `recordData` and accumulating the 8-bit checksum. -/
def readDataBytes : Nat → IStr → Nat → List Nat × Nat × IStr
  | 0, s, ck => ([], ck, s)
  | n + 1, s, ck =>
    let p := getUint8 s
    let d := p.1 % 256
    let ck1 := (ck + d) % 256
    let q := readDataBytes n p.2 ck1
    (d :: q.1, q.2.1, q.2.2)

/-- One record body of `HexFile::read`, from just after the `:` delimiter:
length, address and type fields, then the dispatch on the record type, with
the running 8-bit checksum. -/
def processRecord (s0 : IStr) (lineCounter baseAddress : Nat) (m : ChunkMap) :
    Outcome :=
  let p1 := getUint8 s0
  let dataLength := p1.1 % 256
  let ck1 := (0 + dataLength) % 256
  let p2 := getUint16 p1.2
  let lowAddress := p2.1 % 65536
  let ck2 := (ck1 + lowAddress) % 256
  let ck3 := (ck2 + lowAddress / 256) % 256
  let p3 := getUint8 p2.2
  let recordType := p3.1 % 256
  let ck4 := (ck3 + recordType) % 256
  if recordType = 0 then
    let q := readDataBytes dataLength p3.2 ck4
    let recordData := q.1
    let ckData := q.2.1
    let pc := getUint8 q.2.2
    let checkSum := pc.1 % 256
    let computed := (256 - ckData) % 256
    if checkSum ≠ computed then
      .err (.WrongCheckSum lineCounter checkSum computed) m
    else
      let address := u32 (lowAddress + baseAddress)
      .next pc.2 baseAddress (insertRecordData m address recordData)
  else if recordType = 1 then
    .eofRecord m
  else if recordType = 2 then
    if dataLength ≠ 2 then .err (.InvalidRecord lineCounter) m
    else
      let ph := getUint16 p3.2
      let highAddress := ph.1 % 65536
      let ck5 := (ck4 + highAddress) % 256
      let ck6 := (ck5 + highAddress / 256) % 256
      let newBase := u32 (highAddress <<< 4)
      let pc := getUint8 ph.2
      let checkSum := pc.1 % 256
      let computed := (256 - ck6) % 256
      if checkSum ≠ computed then
        .err (.WrongCheckSum lineCounter checkSum computed) m
      else .next pc.2 newBase m
  else if recordType = 4 then
    if dataLength ≠ 2 then .err (.InvalidRecord lineCounter) m
    else
      let ph := getUint16 p3.2
      let highAddress := ph.1 % 65536
      let ck5 := (ck4 + highAddress) % 256
      let ck6 := (ck5 + highAddress / 256) % 256
      let newBase := u32 (highAddress <<< 16)
      let pc := getUint8 ph.2
      let checkSum := pc.1 % 256
      let computed := (256 - ck6) % 256
      if checkSum ≠ computed then
        .err (.WrongCheckSum lineCounter checkSum computed) m
      else .next pc.2 newBase m
  else
    .err (.UnknownRecordType lineCounter recordType) m

/-- Whitespace for the default-locale `istream` extraction. -/
def isWs (c : Nat) : Bool :=
  c = 32 || c = 9 || c = 10 || c = 11 || c = 12 || c = 13

/-- `ifs >> c` for a `char`: skip whitespace, extract one character; at end
of input the extraction fails (sets `eofbit`/`failbit`, extracts nothing). -/
def extractChar (s : IStr) : Option Nat × IStr :=
  match s.chars.dropWhile isWs with
  | [] => (none, ⟨[], true⟩)
  | c :: r => (some c, ⟨r, s.eofbit⟩)

/-- The `while (ifs.good())` loop of `HexFile::read`.  A failed extraction of
the leading delimiter leaves `c` holding no colon, so the `c != ':'` test
throws `InvalidRecord`; leaving the loop with `eofbit` set throws
`EarlyEOF(lineCounter)`.  `fuel` only bounds the iteration count: every
iteration that recurses has consumed at least one input character, so fuel
`input.length + 1` is never exhausted. -/
def readLoop : Nat → IStr → Nat → Nat → ChunkMap →
    Except HexError Unit × ChunkMap
  | 0, _, lineCounter, _, m => (Except.error (HexError.EarlyEOF lineCounter), m)
  | fuel + 1, s, lineCounter, baseAddress, m =>
    if s.eofbit then (Except.error (HexError.EarlyEOF lineCounter), m)
    else
      match extractChar s with
      | (none, _) => (Except.error (HexError.InvalidRecord lineCounter), m)
      | (some c, s1) =>
        if c ≠ 58 then (Except.error (HexError.InvalidRecord lineCounter), m)
        else
          match processRecord s1 lineCounter baseAddress m with
          | .err e m1 => (Except.error e, m1)
          | .eofRecord m1 => (Except.ok (), m1)
          | .next s2 base1 m1 => readLoop fuel s2 (lineCounter + 1) base1 m1

/-- `HexFile::read` on an already-open stream: line counter and base address
start at `0`, the chunk map starts empty (a freshly constructed `HexFile`). -/
def read (input : List Nat) : Except HexError Unit × ChunkMap :=
  readLoop (input.length + 1) ⟨input, false⟩ 0 0 []

/-- Character codes of a string literal (the encoder's output and the
decoder's input are ASCII text). -/
def codes (str : String) : List Nat :=
  str.data.map Char.toNat

/-- One lower-case hex digit, as emitted by `std::ios::hex` with `fill('0')`
(`flags(std::ios::hex)` clears `uppercase`). -/
def hexDigit (n : Nat) : Nat :=
  if n < 10 then 48 + n else 87 + n

/-- `stream << std::setw(2) << v` for a value `v < 256`: exactly two hex
digits, zero-padded. -/
def hex2 (n : Nat) : List Nat :=
  [hexDigit (n / 16 % 16), hexDigit (n % 16)]

/-- `HexFile::writeExtendedLinearAddressRecord`: the literal `":02000002"`,
then `addr16 & 0xFF`, then `addr16 >> 8`, then the two's-complement checksum,
then a newline. -/
def writeExtendedLinearAddressRecord (addr16 : Nat) : List Nat :=
  let ck1 := (0 + 2 + 0 + 0 + 2) % 256
  let ck2 := (ck1 + addr16 % 256) % 256
  let ck3 := (ck2 + addr16 / 256) % 256
  let ck4 := (256 - ck3) % 256
  codes ":02000002" ++ hex2 (addr16 % 256) ++ hex2 (addr16 / 256) ++
    hex2 ck4 ++ [10]

/-- `HexFile::writeData`: `:`, count, `addr16 & 0xFF`, `addr16 >> 8`, the
literal type field `"00"`, the data bytes, the checksum, a newline. -/
def writeData (addr16 : Nat) (dataBytes : List Nat) : List Nat :=
  let count8 := dataBytes.length
  let ck1 := (0 + count8) % 256
  let ck2 := (ck1 + addr16 % 256) % 256
  let ck3 := (ck2 + addr16 / 256) % 256
  let ck4 := (ck3 + 0) % 256
  let ck5 := dataBytes.foldl (fun a b => (a + b) % 256) ck4
  let ck6 := (256 - ck5) % 256
  [58] ++ hex2 count8 ++ hex2 (addr16 % 256) ++ hex2 (addr16 / 256) ++
    codes "00" ++ dataBytes.flatMap hex2 ++ hex2 ck6 ++ [10]

/-- The row loop of `HexFile::write` for one chunk (`for (count = 0; count <
amount;)`): before each row recompute the row's 64K page from
`(address + count) >> 16` and emit a fresh extension record when it changed;
then emit a data record of at most 32 bytes whose 16-bit address field is
`address & 0xFFFF` (the source uses the chunk's start address for every row,
not `address + count`).  `rest` is the not-yet-written tail of the chunk
(`count` bytes already written); the fuel only bounds the iteration count
(each iteration writes at least one byte, so `rest.length` suffices). -/
def writeRows : Nat → Nat → Nat → Nat → List Nat → List Nat
  | 0, _, _, _, _ => []
  | _, _, _, _, [] => []
  | fuel + 1, address, count, highAddress, rest =>
    let newHighAddress := u32 (address + count) / 65536
    let pre := if newHighAddress ≠ highAddress then
        writeExtendedLinearAddressRecord newHighAddress
      else []
    let rowCount := min rest.length 32
    let lowAddress := address % 65536
    pre ++ writeData lowAddress (rest.take rowCount) ++
      writeRows fuel address (count + rowCount) newHighAddress
        (rest.drop rowCount)

/-- `HexFile::write`: for each chunk in ascending address order, one
extension record for `address >> 16` then the rows; finally the end-of-file
record `":00000001FF"` with no trailing newline. -/
def write (m : ChunkMap) : List Nat :=
  (m.flatMap fun chunk =>
    let address := chunk.1
    let highAddress := address / 65536
    writeExtendedLinearAddressRecord highAddress ++
      writeRows chunk.2.length address 0 highAddress chunk.2) ++
  codes ":00000001FF"

/-- A record body as it appears on the wire (everything after the `:`):
length byte, 16-bit address most-significant byte first, type byte, payload
bytes, trailing checksum byte, each as two hex digits.  Used to quantify over
the records presented to the decoder. -/
def recordChars (len addr ty : Nat) (payload : List Nat) (ck : Nat) :
    List Nat :=
  hex2 len ++ hex2 (addr / 256) ++ hex2 (addr % 256) ++ hex2 ty ++
    payload.flatMap hex2 ++ hex2 ck

/-- The checksum value the spec prescribes for a record: `(256 - s) mod 256`
where `s` is the 8-bit sum of the length byte, both address bytes, the type
byte and every payload byte. -/
def specCheckSum (len addr ty psum : Nat) : Nat :=
  (256 - (len + addr / 256 + addr % 256 + ty + psum) % 256) % 256

theorem mulPow_lor_eq_add (n : Nat) :
    ∀ a b : Nat, b < 2 ^ n → a * 2 ^ n ||| b = a * 2 ^ n + b := by
  induction n with
  | zero =>
    intro a b hb
    interval_cases b
    simp
  | succ n ih =>
    intro a b hb
    have hb2 : b / 2 < 2 ^ n := by
      apply Nat.div_lt_of_lt_mul
      rw [pow_succ] at hb
      omega
    have hdecomp : b = Nat.bit (decide (b % 2 = 1)) (b / 2) := by
      rw [Nat.bit_val]
      rcases Nat.mod_two_eq_zero_or_one b with h | h <;> simp [h] <;> omega
    have ha : a * 2 ^ (n + 1) = Nat.bit false (a * 2 ^ n) := by
      rw [Nat.bit_val]
      simp
      ring
    rw [ha, hdecomp, Nat.lor_bit, ih a (b / 2) hb2]
    rw [Nat.bit_val, Nat.bit_val]
    rcases Nat.mod_two_eq_zero_or_one b with h | h <;> simp [h] <;> omega

theorem getUint4_hexDigit (d : Nat) (hd : d < 16) (r : List Nat) (e : Bool) :
    getUint4 ⟨hexDigit d :: r, e⟩ = (d, ⟨r, e⟩) := by
  interval_cases d <;> rfl

theorem getUint8_hex2 (b : Nat) (hb : b < 256) (r : List Nat) (e : Bool) :
    getUint8 ⟨hex2 b ++ r, e⟩ = (b, ⟨r, e⟩) := by
  have h1 : b / 16 % 16 = b / 16 := by omega
  have hcons : hex2 b ++ r = hexDigit (b / 16) :: hexDigit (b % 16) :: r := by
    simp [hex2, h1]
  have h16 : (2 : Nat) ^ 4 = 16 := by norm_num
  have hval : u32 ((b / 16) <<< 4) ||| b % 16 = b := by
    have hs : (b / 16) <<< 4 = b / 16 * 16 := by
      rw [Nat.shiftLeft_eq, h16]
    have hu : u32 (b / 16 * 16) = b / 16 * 16 := Nat.mod_eq_of_lt (by omega)
    have hl := mulPow_lor_eq_add 4 (b / 16) (b % 16) (by rw [h16]; omega)
    rw [h16] at hl
    rw [hs, hu, hl]
    omega
  rw [getUint8, hcons, getUint4_hexDigit (b / 16) (by omega),
    getUint4_hexDigit (b % 16) (by omega)]
  simp only [hval]

theorem getUint16_hex4 (hi lo : Nat) (hhi : hi < 256) (hlo : lo < 256)
    (r : List Nat) (e : Bool) :
    getUint16 ⟨hex2 hi ++ (hex2 lo ++ r), e⟩ = (hi * 256 + lo, ⟨r, e⟩) := by
  have h256 : (2 : Nat) ^ 8 = 256 := by norm_num
  have hval : u32 (hi <<< 8) ||| lo = hi * 256 + lo := by
    have hs : hi <<< 8 = hi * 256 := by
      rw [Nat.shiftLeft_eq, h256]
    have hu : u32 (hi * 256) = hi * 256 := Nat.mod_eq_of_lt (by omega)
    have hl := mulPow_lor_eq_add 8 hi lo (by rw [h256]; omega)
    rw [h256] at hl
    rw [hs, hu, hl]
  rw [getUint16, getUint8_hex2 hi hhi (hex2 lo ++ r) e, getUint8_hex2 lo hlo r e]
  simp only [hval]

theorem readDataBytes_flatMap (payload : List Nat) :
    ∀ (ck : Nat) (r : List Nat) (e : Bool), (∀ b ∈ payload, b < 256) →
      ck < 256 →
      readDataBytes payload.length ⟨payload.flatMap hex2 ++ r, e⟩ ck =
        (payload, (ck + payload.sum) % 256, ⟨r, e⟩) := by
  induction payload with
  | nil =>
    intro ck r e _ hck
    simp [readDataBytes, Nat.mod_eq_of_lt hck]
  | cons b t ih =>
    intro ck r e hmem hck
    have hb : b < 256 := hmem b (by simp)
    have hcons : (b :: t).flatMap hex2 ++ r = hex2 b ++ (t.flatMap hex2 ++ r) := by
      simp
    rw [List.length_cons, readDataBytes, hcons, getUint8_hex2 b hb]
    simp only [Nat.mod_eq_of_lt hb]
    rw [ih ((ck + b) % 256) r e (fun x hx => hmem x (by simp [hx])) (by omega)]
    refine Prod.ext rfl ?_
    refine Prod.ext ?_ rfl
    simp [List.sum_cons]
    omega

/-- Symbolic execution of `processRecord` on a well-formed data record
(type 0): the record parses, and is accepted exactly when the trailing
checksum byte equals `specCheckSum`; on mismatch the thrown `WrongCheckSum`
carries the transmitted and the computed value. -/
theorem processRecord_data (len addr : Nat) (payload : List Nat)
    (ck line base : Nat) (m : ChunkMap) (rest : List Nat) (e : Bool)
    (hlen : len < 256) (haddr : addr < 65536) (hck : ck < 256)
    (hpl : payload.length = len) (hbytes : ∀ b ∈ payload, b < 256) :
    processRecord ⟨recordChars len addr 0 payload ck ++ rest, e⟩ line base m =
      if ck = specCheckSum len addr 0 payload.sum then
        .next ⟨rest, e⟩ base (insertRecordData m (u32 (addr + base)) payload)
      else
        .err (.WrongCheckSum line ck (specCheckSum len addr 0 payload.sum)) m := by
  have hsplit : recordChars len addr 0 payload ck ++ rest =
      hex2 len ++ (hex2 (addr / 256) ++ (hex2 (addr % 256) ++ (hex2 0 ++
        (payload.flatMap hex2 ++ (hex2 ck ++ rest))))) := by
    simp [recordChars]
  unfold processRecord
  rw [hsplit, getUint8_hex2 len hlen _ e]
  dsimp only
  rw [Nat.mod_eq_of_lt hlen]
  rw [getUint16_hex4 (addr / 256) (addr % 256) (by omega) (by omega) _ e]
  dsimp only
  have haddrval : addr / 256 * 256 + addr % 256 = addr := by omega
  rw [haddrval, Nat.mod_eq_of_lt haddr]
  rw [getUint8_hex2 0 (by omega) _ e]
  dsimp only
  rw [← hpl]
  rw [readDataBytes_flatMap payload _ _ e hbytes (by omega)]
  dsimp only
  rw [getUint8_hex2 ck hck rest e]
  dsimp only
  rw [Nat.mod_eq_of_lt hck]
  simp only [Nat.zero_mod]
  have hcomp : (256 - (((((0 + payload.length) % 256 + addr) % 256 + addr / 256) % 256 + 0) % 256 + payload.sum) % 256) % 256
      = specCheckSum payload.length addr 0 payload.sum := by
    unfold specCheckSum
    omega
  rw [hcomp]
  simp only [eq_self_iff_true, if_true]
  by_cases h : ck = specCheckSum payload.length addr 0 payload.sum <;> simp [h]

/-- Symbolic execution of `processRecord` on a well-formed extended segment
address record (type 2, declared length 2, value bytes `v0 v1`): accepted
exactly when the checksum matches, in which case the base address becomes
`(v0*256+v1) << 4`, replacing the previous base. -/
theorem processRecord_seg (addr v0 v1 ck line base : Nat) (m : ChunkMap)
    (rest : List Nat) (e : Bool)
    (haddr : addr < 65536) (hv0 : v0 < 256) (hv1 : v1 < 256) (hck : ck < 256) :
    processRecord ⟨recordChars 2 addr 2 [v0, v1] ck ++ rest, e⟩ line base m =
      if ck = specCheckSum 2 addr 2 (v0 + v1) then
        .next ⟨rest, e⟩ (u32 ((v0 * 256 + v1) <<< 4)) m
      else
        .err (.WrongCheckSum line ck (specCheckSum 2 addr 2 (v0 + v1))) m := by
  have hsplit : recordChars 2 addr 2 [v0, v1] ck ++ rest =
      hex2 2 ++ (hex2 (addr / 256) ++ (hex2 (addr % 256) ++ (hex2 2 ++
        (hex2 v0 ++ (hex2 v1 ++ (hex2 ck ++ rest)))))) := by
    simp [recordChars]
  unfold processRecord
  rw [hsplit, getUint8_hex2 2 (by norm_num) _ e]
  dsimp only
  rw [getUint16_hex4 (addr / 256) (addr % 256) (by omega) (by omega) _ e]
  dsimp only
  have haddrval : addr / 256 * 256 + addr % 256 = addr := by omega
  rw [haddrval, Nat.mod_eq_of_lt haddr]
  rw [getUint8_hex2 2 (by norm_num) _ e]
  dsimp only
  rw [getUint16_hex4 v0 v1 hv0 hv1 _ e]
  dsimp only
  rw [getUint8_hex2 ck hck rest e]
  dsimp only
  rw [Nat.mod_eq_of_lt hck]
  have h2 : (2 : Nat) % 256 = 2 := by norm_num
  rw [h2]
  rw [if_neg (by norm_num : ¬ (2 : Nat) = 0), if_neg (by norm_num : ¬ (2 : Nat) = 1),
    if_pos (rfl : (2 : Nat) = 2), if_neg (by norm_num : ¬ (2 : Nat) ≠ 2)]
  have hval : (v0 * 256 + v1) % 65536 = v0 * 256 + v1 := Nat.mod_eq_of_lt (by omega)
  rw [hval]
  have hcomp : (256 - ((((((0 + 2) % 256 + addr) % 256 + addr / 256) % 256 + 2) % 256 + (v0 * 256 + v1)) % 256 + (v0 * 256 + v1) / 256) % 256) % 256
      = specCheckSum 2 addr 2 (v0 + v1) := by
    unfold specCheckSum
    have hdiv : (v0 * 256 + v1) / 256 = v0 := by omega
    rw [hdiv]
    omega
  rw [hcomp]
  by_cases h : ck = specCheckSum 2 addr 2 (v0 + v1) <;> simp [h]

/-- Symbolic execution of `processRecord` on a well-formed extended linear
address record (type 4, declared length 2, value bytes `v0 v1`): accepted
exactly when the checksum matches, in which case the base address becomes
`(v0*256+v1) << 16`, replacing the previous base. -/
theorem processRecord_lin (addr v0 v1 ck line base : Nat) (m : ChunkMap)
    (rest : List Nat) (e : Bool)
    (haddr : addr < 65536) (hv0 : v0 < 256) (hv1 : v1 < 256) (hck : ck < 256) :
    processRecord ⟨recordChars 2 addr 4 [v0, v1] ck ++ rest, e⟩ line base m =
      if ck = specCheckSum 2 addr 4 (v0 + v1) then
        .next ⟨rest, e⟩ (u32 ((v0 * 256 + v1) <<< 16)) m
      else
        .err (.WrongCheckSum line ck (specCheckSum 2 addr 4 (v0 + v1))) m := by
  have hsplit : recordChars 2 addr 4 [v0, v1] ck ++ rest =
      hex2 2 ++ (hex2 (addr / 256) ++ (hex2 (addr % 256) ++ (hex2 4 ++
        (hex2 v0 ++ (hex2 v1 ++ (hex2 ck ++ rest)))))) := by
    simp [recordChars]
  unfold processRecord
  rw [hsplit, getUint8_hex2 2 (by norm_num) _ e]
  dsimp only
  rw [getUint16_hex4 (addr / 256) (addr % 256) (by omega) (by omega) _ e]
  dsimp only
  have haddrval : addr / 256 * 256 + addr % 256 = addr := by omega
  rw [haddrval, Nat.mod_eq_of_lt haddr]
  rw [getUint8_hex2 4 (by norm_num) _ e]
  dsimp only
  rw [getUint16_hex4 v0 v1 hv0 hv1 _ e]
  dsimp only
  rw [getUint8_hex2 ck hck rest e]
  dsimp only
  rw [Nat.mod_eq_of_lt hck]
  have h2 : (2 : Nat) % 256 = 2 := by norm_num
  have h4 : (4 : Nat) % 256 = 4 := by norm_num
  rw [h2, h4]
  rw [if_neg (by norm_num : ¬ (4 : Nat) = 0), if_neg (by norm_num : ¬ (4 : Nat) = 1),
    if_neg (by norm_num : ¬ (4 : Nat) = 2), if_pos (rfl : (4 : Nat) = 4),
    if_neg (by norm_num : ¬ (2 : Nat) ≠ 2)]
  have hval : (v0 * 256 + v1) % 65536 = v0 * 256 + v1 := Nat.mod_eq_of_lt (by omega)
  rw [hval]
  have hcomp : (256 - ((((((0 + 2) % 256 + addr) % 256 + addr / 256) % 256 + 4) % 256 + (v0 * 256 + v1)) % 256 + (v0 * 256 + v1) / 256) % 256) % 256
      = specCheckSum 2 addr 4 (v0 + v1) := by
    unfold specCheckSum
    have hdiv : (v0 * 256 + v1) / 256 = v0 := by omega
    rw [hdiv]
    omega
  rw [hcomp]
  by_cases h : ck = specCheckSum 2 addr 4 (v0 + v1) <;> simp [h]

/-- An extension record (type 2 or 4) whose declared length is not 2 is
rejected as `InvalidRecord` before its value or checksum is read. -/
theorem processRecord_extBadLen (len addr ty : Nat) (payload : List Nat)
    (ck line base : Nat) (m : ChunkMap) (rest : List Nat) (e : Bool)
    (hlen : len < 256) (hlen2 : len ≠ 2) (haddr : addr < 65536)
    (hty : ty = 2 ∨ ty = 4) :
    processRecord ⟨recordChars len addr ty payload ck ++ rest, e⟩ line base m =
      .err (.InvalidRecord line) m := by
  have hsplit : recordChars len addr ty payload ck ++ rest =
      hex2 len ++ (hex2 (addr / 256) ++ (hex2 (addr % 256) ++ (hex2 ty ++
        (payload.flatMap hex2 ++ (hex2 ck ++ rest))))) := by
    simp [recordChars]
  unfold processRecord
  rw [hsplit, getUint8_hex2 len hlen _ e]
  dsimp only
  rw [Nat.mod_eq_of_lt hlen]
  rw [getUint16_hex4 (addr / 256) (addr % 256) (by omega) (by omega) _ e]
  dsimp only
  have haddrval : addr / 256 * 256 + addr % 256 = addr := by omega
  rw [haddrval, Nat.mod_eq_of_lt haddr]
  rcases hty with h | h <;> subst h
  · rw [getUint8_hex2 2 (by norm_num) _ e]
    dsimp only
    have h2 : (2 : Nat) % 256 = 2 := by norm_num
    rw [h2]
    rw [if_neg (by norm_num : ¬ (2 : Nat) = 0), if_neg (by norm_num : ¬ (2 : Nat) = 1),
      if_pos (rfl : (2 : Nat) = 2), if_pos hlen2]
  · rw [getUint8_hex2 4 (by norm_num) _ e]
    dsimp only
    have h4 : (4 : Nat) % 256 = 4 := by norm_num
    rw [h4]
    rw [if_neg (by norm_num : ¬ (4 : Nat) = 0), if_neg (by norm_num : ¬ (4 : Nat) = 1),
      if_neg (by norm_num : ¬ (4 : Nat) = 2), if_pos (rfl : (4 : Nat) = 4),
      if_pos hlen2]

/-- The separation invariant claimed for the sparse memory model: any two
entries with `a1 < a2` satisfy `a1 + length(b1) < a2` (no touching, no
overlap). -/
def Separated (m : ChunkMap) : Prop :=
  ∀ p ∈ m, ∀ q ∈ m, p.1 < q.1 → p.1 + p.2.length < q.1

/-- The `std::map` key ordering: strictly ascending start addresses. -/
def SortedMap (m : ChunkMap) : Prop :=
  m.Pairwise (fun p q => p.1 < q.1)

theorem fuseScan_none (m : ChunkMap) (addr : Nat) (bytes : List Nat)
    (h : ∀ p ∈ m, addr ≠ p.1 + p.2.length ∧ addr + bytes.length ≠ p.1) :
    fuseScan m addr bytes = none := by
  induction m with
  | nil => rfl
  | cons hd t ih =>
    obtain ⟨h1, h2⟩ := h hd (by simp)
    cases hd with
    | mk k b =>
      simp only [fuseScan]
      rw [if_neg h1, if_neg h2, ih (fun p hp => h p (by simp [hp]))]
      rfl

theorem mem_mapInsert (m : ChunkMap) (addr : Nat) (bytes : List Nat) :
    ∀ q ∈ mapInsert m addr bytes, q ∈ m ∨ q = (addr, bytes) := by
  induction m with
  | nil =>
    intro q hq
    simp only [mapInsert] at hq
    simp at hq
    simp [hq]
  | cons hd t ih =>
    intro q hq
    cases hd with
    | mk k b =>
      simp only [mapInsert] at hq
      by_cases h1 : addr < k
      · rw [if_pos h1] at hq
        rcases List.mem_cons.mp hq with h | h
        · simp [h]
        · simp [h]
      · rw [if_neg h1] at hq
        by_cases h2 : addr = k
        · rw [if_pos h2] at hq
          rcases List.mem_cons.mp hq with h | h
          · simp [h]
          · simp [h]
        · rw [if_neg h2] at hq
          rcases List.mem_cons.mp hq with h | h
          · simp [h]
          · rcases ih q h with h3 | h3
            · simp [h3]
            · simp [h3]

theorem mapInsert_replace (m : ChunkMap) (addr : Nat) (bytes oldBytes : List Nat)
    (hsort : SortedMap m) (hmem : (addr, oldBytes) ∈ m) :
    mapInsert m addr bytes =
      m.map (fun p => if p.1 = addr then (addr, bytes) else p) := by
  induction m with
  | nil => cases hmem
  | cons hd t ih =>
    cases hd with
    | mk k b =>
      unfold SortedMap at hsort
      rw [List.pairwise_cons] at hsort
      obtain ⟨hhead, htail⟩ := hsort
      rcases List.mem_cons.mp hmem with heq | hmemt
      · have hak : addr = k := (Prod.mk.injEq _ _ _ _ ▸ heq).1
        subst hak
        have htmap : t.map (fun p => if p.1 = addr then (addr, bytes) else p) = t := by
          have hcong : ∀ p ∈ t, (if p.1 = addr then (addr, bytes) else p) = p := by
            intro p hp
            have : addr < p.1 := hhead p hp
            rw [if_neg (by omega)]
          rw [List.map_congr_left hcong]
          simp
        simp [mapInsert, htmap]
      · have hk : k < addr := hhead _ hmemt
        simp only [mapInsert]
        rw [if_neg (by omega), if_neg (by omega)]
        simp only [List.map_cons]
        rw [if_neg (by omega : ¬ k = addr)]
        rw [ih htail hmemt]

instance : DecidableEq (Except HexError Unit) := fun x y =>
  match x, y with
  | .ok (), .ok () => isTrue rfl
  | .error a, .error b =>
    if h : a = b then isTrue (by rw [h])
    else isFalse (fun hc => h (by injection hc))
  | .ok _, .error _ => isFalse (fun hc => Except.noConfusion hc)
  | .error _, .ok _ => isFalse (fun hc => Except.noConfusion hc)

instance decSeparated (m : ChunkMap) : Decidable (Separated m) := by
  unfold Separated
  infer_instance

instance decSortedMap (m : ChunkMap) : Decidable (SortedMap m) := by
  unfold SortedMap
  infer_instance

theorem sum_set_add (l : List Nat) : ∀ (i : Nat) (hi : i < l.length) (b2 : Nat),
    (l.set i b2).sum + l.get ⟨i, hi⟩ = l.sum + b2 := by
  induction l with
  | nil =>
    intro i hi
    simp at hi
  | cons hd t ih =>
    intro i hi b2
    cases i with
    | zero =>
      simp [List.set]
      omega
    | succ n =>
      have hn : n < t.length := by simpa using hi
      have hrec := ih n hn b2
      have hset : (hd :: t).set (n + 1) b2 = hd :: t.set n b2 := rfl
      have hget : (hd :: t).get ⟨n + 1, hi⟩ = t.get ⟨n, hn⟩ := rfl
      rw [hset, hget, List.sum_cons, List.sum_cons]
      omega

set_option maxRecDepth 8000

/-- Claim C1: the spec says `decode(encode(model))` preserves the
address-to-bytes mapping for every model with disjoint, non-adjacent chunks.
The code violates this: `writeData` emits the 16-bit record address low byte
first while `read` parses it high byte first (and the checksum, being a sum,
does not catch the swap), so the single byte 171 stored at address 0x100
round-trips to address 0x0001.  Evaluation of the code at the failing
input. -/
theorem roundtrip_bug :
    read (write [(256, [171])]) = (Except.ok (), [(1, [171])]) := by
  decide

/-- Claim C2, counterexample: after decoding data records for [0,2), [4,6)
and then [2,4), the bridging record tail-fuses with the first chunk, leaving
chunks at 0 (length 4) and at 4 — they touch, so `a1 + length(b1) < a2`
fails on the model after that insertion. -/
theorem separation_invariant_counterexample :
    (read (codes ":020000000102fb:020004000304f3:020002000506f1:00000001ff")).2
        = [(0, [1, 2, 5, 6]), (4, [3, 4])] ∧
      ¬ Separated [(0, [1, 2, 5, 6]), (4, [3, 4])] := by
  constructor
  · decide
  · decide

/-- Claim C2, amended: the separation invariant is preserved by an insertion
whose record data neither touches nor overlaps any existing chunk (such a
record fuses with nothing and becomes a new chunk); fusing insertions can
leave touching chunks (a bridging record) or overlapping ones (head fusion
keeps the old start key). -/
theorem separation_preserved_of_disjoint (m : ChunkMap) (addr : Nat)
    (bytes : List Nat) (hsep : Separated m)
    (hdisj : ∀ p ∈ m, addr + bytes.length < p.1 ∨ p.1 + p.2.length < addr) :
    Separated (insertRecordData m addr bytes) := by
  have hnf : fuseScan m addr bytes = none := by
    apply fuseScan_none
    intro p hp
    rcases hdisj p hp with h | h <;> constructor <;> omega
  unfold insertRecordData
  rw [hnf]
  intro p hp q hq hlt
  rcases mem_mapInsert m addr bytes p hp with hpm | hpe <;>
    rcases mem_mapInsert m addr bytes q hq with hqm | hqe
  · exact hsep p hpm q hqm hlt
  · subst hqe
    rcases hdisj p hpm with h | h <;> simp at hlt ⊢ <;> omega
  · subst hpe
    rcases hdisj q hqm with h | h <;> simp at hlt ⊢ <;> omega
  · subst hpe
    subst hqe
    omega

theorem separation_preserved_of_disjoint_witness :
    Separated (insertRecordData [(0, [1]), (10, [2])] 5 [7]) :=
  separation_preserved_of_disjoint [(0, [1]), (10, [2])] 5 [7]
    (by decide) (by decide)

/-- Claim C3: the spec says the encoder emits an extended-linear-address
record (type 4, value most-significant byte first) per chunk and afresh at
each 64K page change.  The fresh-record-per-page-change structure is present
(second conjunct), but the emitted record has type byte 02 (extended segment
address) and carries the page value least-significant byte first:
page 1 is written as `:020000020100fb`, not `:020000040001f9`.  Evaluation
of the code at the failing input. -/
theorem extended_address_record_format_bug :
    writeExtendedLinearAddressRecord 1 = codes ":020000020100fb" ++ [10] ∧
      write [(65504, List.replicate 64 7)] =
        writeExtendedLinearAddressRecord 0 ++ writeData 65504 (List.replicate 32 7) ++
          writeExtendedLinearAddressRecord 1 ++ writeData 65504 (List.replicate 32 7) ++
          codes ":00000001FF" := by
  constructor
  · decide
  · decide

/-- Claim C4: for every data or extension record the decoder accepts only if
the trailing checksum byte equals `(256 - s) mod 256`, `s` the 8-bit sum of
length, both address bytes, type and payload bytes; on mismatch it throws
`WrongCheckSum` carrying the transmitted and the computed values. -/
theorem checksum_gate (len addr ty ck line base : Nat) (payload : List Nat)
    (m : ChunkMap) (rest : List Nat) (e : Bool)
    (hlen : len < 256) (haddr : addr < 65536) (hck : ck < 256)
    (hbytes : ∀ b ∈ payload, b < 256)
    (hty : (ty = 0 ∧ payload.length = len) ∨
           ((ty = 2 ∨ ty = 4) ∧ len = 2 ∧ ∃ v0 v1, payload = [v0, v1])) :
    (ck ≠ specCheckSum len addr ty payload.sum →
      processRecord ⟨recordChars len addr ty payload ck ++ rest, e⟩ line base m =
        .err (.WrongCheckSum line ck (specCheckSum len addr ty payload.sum)) m) ∧
    (ck = specCheckSum len addr ty payload.sum →
      ∃ s1 base1 m1,
        processRecord ⟨recordChars len addr ty payload ck ++ rest, e⟩ line base m =
          .next s1 base1 m1) := by
  rcases hty with ⟨hty0, hpl⟩ | ⟨hty24, hlen2, v0, v1, hplv⟩
  · subst hty0
    rw [processRecord_data len addr payload ck line base m rest e hlen haddr hck
      hpl hbytes]
    constructor
    · intro hne
      rw [if_neg hne]
    · intro heq
      rw [if_pos heq]
      exact ⟨_, _, _, rfl⟩
  · subst hplv
    have hv0 : v0 < 256 := hbytes v0 (by simp)
    have hv1 : v1 < 256 := hbytes v1 (by simp)
    have hsum : ([v0, v1] : List Nat).sum = v0 + v1 := by simp
    subst hlen2
    rcases hty24 with h2 | h4
    · subst h2
      rw [hsum, processRecord_seg addr v0 v1 ck line base m rest e haddr hv0 hv1 hck]
      constructor
      · intro hne
        rw [if_neg hne]
      · intro heq
        rw [if_pos heq]
        exact ⟨_, _, _, rfl⟩
    · subst h4
      rw [hsum, processRecord_lin addr v0 v1 ck line base m rest e haddr hv0 hv1 hck]
      constructor
      · intro hne
        rw [if_neg hne]
      · intro heq
        rw [if_pos heq]
        exact ⟨_, _, _, rfl⟩

theorem checksum_gate_witness :
    processRecord ⟨recordChars 1 0 0 [65] 0 ++ [], false⟩ 0 0 [] =
        Outcome.err (HexError.WrongCheckSum 0 0 190) [] ∧
      ∃ s1 base1 m1,
        processRecord ⟨recordChars 1 0 0 [65] 190 ++ [], false⟩ 0 0 [] =
          Outcome.next s1 base1 m1 :=
  ⟨(checksum_gate 1 0 0 0 0 0 [65] [] [] false (by norm_num) (by norm_num)
      (by norm_num) (by decide) (Or.inl ⟨rfl, rfl⟩)).1 (by decide),
   (checksum_gate 1 0 0 190 0 0 [65] [] [] false (by norm_num) (by norm_num)
      (by norm_num) (by decide) (Or.inl ⟨rfl, rfl⟩)).2 (by decide)⟩

/-- Claim C5: flipping any single payload byte or either address byte of a
well-formed data record, leaving the trailing checksum byte unchanged, makes
the decoder throw `WrongCheckSum` on that record. -/
theorem checksum_sensitivity (len addr : Nat) (payload : List Nat)
    (ck line base : Nat) (m : ChunkMap) (rest : List Nat) (e : Bool)
    (hlen : len < 256) (haddr : addr < 65536) (hck : ck < 256)
    (hpl : payload.length = len) (hbytes : ∀ b ∈ payload, b < 256)
    (hwf : ck = specCheckSum len addr 0 payload.sum) :
    (∀ (i : Fin payload.length) (b2 : Nat), b2 < 256 → b2 ≠ payload.get i →
      processRecord ⟨recordChars len addr 0 (payload.set i b2) ck ++ rest, e⟩
          line base m =
        .err (.WrongCheckSum line ck
          (specCheckSum len addr 0 (payload.set i b2).sum)) m) ∧
    (∀ addr2 : Nat, addr2 < 65536 → addr2 ≠ addr →
      (addr2 / 256 = addr / 256 ∨ addr2 % 256 = addr % 256) →
      processRecord ⟨recordChars len addr2 0 payload ck ++ rest, e⟩ line base m =
        .err (.WrongCheckSum line ck (specCheckSum len addr2 0 payload.sum)) m) := by
  constructor
  · intro i b2 hb2 hne
    have hpl2 : (payload.set i b2).length = len := by
      rw [List.length_set]
      exact hpl
    have hbytes2 : ∀ b ∈ payload.set i b2, b < 256 := by
      intro b hb
      rcases List.mem_or_eq_of_mem_set hb with h | h
      · exact hbytes b h
      · omega
    rw [processRecord_data len addr (payload.set i b2) ck line base m rest e hlen
      haddr hck hpl2 hbytes2]
    have hkey : ck ≠ specCheckSum len addr 0 (payload.set i b2).sum := by
      rw [hwf]
      have hs := sum_set_add payload i.1 i.2 b2
      simp only [Fin.eta] at hs
      have hbi : payload.get i < 256 := by
        have hmem := List.get_mem payload i.1 i.2
        simp only [Fin.eta] at hmem
        exact hbytes _ hmem
      unfold specCheckSum
      omega
    rw [if_neg hkey]
  · intro addr2 ha2 hne hb
    rw [processRecord_data len addr2 payload ck line base m rest e hlen ha2 hck
      hpl hbytes]
    have hkey : ck ≠ specCheckSum len addr2 0 payload.sum := by
      rw [hwf]
      unfold specCheckSum
      omega
    rw [if_neg hkey]

theorem checksum_sensitivity_witness :
    processRecord ⟨recordChars 1 0 0 [66] 190 ++ [], false⟩ 0 0 [] =
        Outcome.err (HexError.WrongCheckSum 0 190 189) [] ∧
      processRecord ⟨recordChars 1 1 0 [65] 190 ++ [], false⟩ 0 0 [] =
        Outcome.err (HexError.WrongCheckSum 0 190 189) [] := by
  constructor
  · exact (checksum_sensitivity 1 0 [65] 190 0 0 [] [] false (by norm_num)
      (by norm_num) (by norm_num) rfl (by decide) (by decide)).1
      ⟨0, by norm_num⟩ 66 (by norm_num) (by decide)
  · exact (checksum_sensitivity 1 0 [65] 190 0 0 [] [] false (by norm_num)
      (by norm_num) (by norm_num) rfl (by decide) (by decide)).2
      1 (by norm_num) (by norm_num) (Or.inl rfl)

/-- Claim C6: the spec says records for [0x100,0x110) and [0x110,0x120)
decode, in either order, to one chunk starting at 0x100.  Ascending order
does (first conjunct).  In descending order the second record head-fuses but
the map key is not updated, so the single resulting chunk is keyed 0x110
(= 272) while holding the bytes of [0x100,0x110) first — the claimed chunk
at 0x100 does not exist.  Evaluation of the code at the failing input. -/
theorem coalescing_order_bug :
    read (codes ":10010000ffffffffffffffffffffffffffffffffff\n:1001100000000000000000000000000000000000df\n:00000001ff")
        = (Except.ok (), [(256, List.replicate 16 255 ++ List.replicate 16 0)]) ∧
      read (codes ":1001100000000000000000000000000000000000df\n:10010000ffffffffffffffffffffffffffffffffff\n:00000001ff")
        = (Except.ok (), [(272, List.replicate 16 255 ++ List.replicate 16 0)]) := by
  constructor
  · decide
  · decide

/-- Claim C7: an extended segment address record with value `v` sets the
base to `v << 4` and an extended linear one to `v << 16`, each replacing the
previous base (the conclusion does not depend on `base`) and requiring
declared length 2 (`InvalidRecord` otherwise); a data record is stored at
`base + record address`.  The last two conjuncts are the spec's concrete
instances: linear value 0x0001, and segment value 0x1000, each followed by a
data record at low address 0x0020, store the byte at 0x00010020 = 65568. -/
theorem extended_addressing :
    (∀ (addr v0 v1 ck line base : Nat) (m : ChunkMap) (rest : List Nat) (e : Bool),
      addr < 65536 → v0 < 256 → v1 < 256 → ck < 256 →
      ck = specCheckSum 2 addr 2 (v0 + v1) →
      processRecord ⟨recordChars 2 addr 2 [v0, v1] ck ++ rest, e⟩ line base m =
        .next ⟨rest, e⟩ (u32 ((v0 * 256 + v1) <<< 4)) m) ∧
    (∀ (addr v0 v1 ck line base : Nat) (m : ChunkMap) (rest : List Nat) (e : Bool),
      addr < 65536 → v0 < 256 → v1 < 256 → ck < 256 →
      ck = specCheckSum 2 addr 4 (v0 + v1) →
      processRecord ⟨recordChars 2 addr 4 [v0, v1] ck ++ rest, e⟩ line base m =
        .next ⟨rest, e⟩ (u32 ((v0 * 256 + v1) <<< 16)) m) ∧
    (∀ (len addr ty ck line base : Nat) (payload : List Nat) (m : ChunkMap)
        (rest : List Nat) (e : Bool),
      len < 256 → len ≠ 2 → addr < 65536 → (ty = 2 ∨ ty = 4) →
      processRecord ⟨recordChars len addr ty payload ck ++ rest, e⟩ line base m =
        .err (.InvalidRecord line) m) ∧
    (∀ (len addr ck line base : Nat) (payload : List Nat) (m : ChunkMap)
        (rest : List Nat) (e : Bool),
      len < 256 → addr < 65536 → ck < 256 → payload.length = len →
      (∀ b ∈ payload, b < 256) → ck = specCheckSum len addr 0 payload.sum →
      processRecord ⟨recordChars len addr 0 payload ck ++ rest, e⟩ line base m =
        .next ⟨rest, e⟩ base (insertRecordData m (u32 (addr + base)) payload)) ∧
    read (codes ":020000040001f9:01002000429d:00000001ff") =
      (Except.ok (), [(65568, [66])]) ∧
    read (codes ":020000021000ec:01002000429d:00000001ff") =
      (Except.ok (), [(65568, [66])]) := by
  refine ⟨?_, ?_, ?_, ?_, ?_, ?_⟩
  · intro addr v0 v1 ck line base m rest e haddr hv0 hv1 hck hckeq
    rw [processRecord_seg addr v0 v1 ck line base m rest e haddr hv0 hv1 hck,
      if_pos hckeq]
  · intro addr v0 v1 ck line base m rest e haddr hv0 hv1 hck hckeq
    rw [processRecord_lin addr v0 v1 ck line base m rest e haddr hv0 hv1 hck,
      if_pos hckeq]
  · intro len addr ty ck line base payload m rest e hlen hlen2 haddr hty
    exact processRecord_extBadLen len addr ty payload ck line base m rest e hlen
      hlen2 haddr hty
  · intro len addr ck line base payload m rest e hlen haddr hck hpl hbytes hckeq
    rw [processRecord_data len addr payload ck line base m rest e hlen haddr hck
      hpl hbytes, if_pos hckeq]
  · decide
  · decide

theorem extended_addressing_witness :
    processRecord ⟨recordChars 2 0 2 [16, 0] 236 ++ [], false⟩ 0 7 [] =
        Outcome.next ⟨[], false⟩ 65536 [] ∧
      processRecord ⟨recordChars 2 0 4 [0, 1] 249 ++ [], false⟩ 0 7 [] =
        Outcome.next ⟨[], false⟩ 65536 [] ∧
      processRecord ⟨recordChars 3 0 4 [1, 2, 3] 0 ++ [], false⟩ 5 0 [] =
        Outcome.err (HexError.InvalidRecord 5) [] ∧
      processRecord ⟨recordChars 1 32 0 [66] 157 ++ [], false⟩ 0 65536 [] =
        Outcome.next ⟨[], false⟩ 65536 [(65568, [66])] := by
  refine ⟨?_, ?_, ?_, ?_⟩
  · exact extended_addressing.1 0 16 0 236 0 7 [] [] false (by norm_num)
      (by norm_num) (by norm_num) (by norm_num) (by decide)
  · exact extended_addressing.2.1 0 0 1 249 0 7 [] [] false (by norm_num)
      (by norm_num) (by norm_num) (by norm_num) (by decide)
  · exact extended_addressing.2.2.1 3 0 4 0 5 0 [1, 2, 3] [] [] false
      (by norm_num) (by norm_num) (by norm_num) (Or.inr rfl)
  · exact extended_addressing.2.2.2.1 1 32 157 0 65536 [66] [] [] false
      (by norm_num) (by norm_num) (by norm_num) rfl (by decide) (by decide)

/-- Claim C8: the spec says a stream exhausted before any end-of-file record
yields `EarlyEOF` with the number of records consumed.  The code checks
`ifs.good()` before reading, so clean exhaustion is detected by the failed
`ifs >> c` extraction, and the `c != ':'` test throws `InvalidRecord(1)`
instead (with `c` left indeterminate by the failed extraction, the outcome
can never be `EarlyEOF` at this point: a leftover `:` would lead to garbage
reads and `UnknownRecordType`).  Evaluation of the code at the failing
input: one well-formed data record, no end-of-file record. -/
theorem early_eof_bug :
    read (codes ":0100000041be") =
      (Except.error (HexError.InvalidRecord 1), [(0, [65])]) := by
  decide

/-- Claim C9, counterexample: a valid data record followed by a malformed
line aborts with `InvalidRecord`, but the chunk inserted by the first record
remains in the model, which is observably different from the empty model the
decode started from — there IS a partial result. -/
theorem partial_model_counterexample :
    read (codes ":0100000042bdx") =
      (Except.error (HexError.InvalidRecord 1), [(0, [66])]) ∧
      [((0 : Nat), [(66 : Nat)])] ≠ ([] : ChunkMap) := by
  constructor
  · decide
  · decide

/-- Claim C9, amended: every detected error aborts the decode immediately —
the failing record's error is returned as the final result and no later
record is processed — but the model returned is whatever had been built
before the error, not the initial model. -/
theorem error_aborts_immediately (fuel : Nat) (s s1 : IStr) (line base : Nat)
    (m mE : ChunkMap) (e : HexError)
    (hgood : s.eofbit = false)
    (hextract : extractChar s = (some 58, s1))
    (herr : processRecord s1 line base m = .err e mE) :
    readLoop (fuel + 1) s line base m = (Except.error e, mE) := by
  rw [readLoop, hgood, hextract]
  simp only [Bool.false_eq_true, if_false]
  rw [if_neg (by omega : ¬ (58 : Nat) ≠ 58), herr]

theorem error_aborts_immediately_witness :
    readLoop 5 ⟨codes ":00000003", false⟩ 0 0 [] =
      (Except.error (HexError.UnknownRecordType 0 3), []) :=
  error_aborts_immediately 4 ⟨codes ":00000003", false⟩ ⟨codes "00000003", false⟩
    0 0 [] [] (HexError.UnknownRecordType 0 3) rfl (by decide) (by decide)

/-- Claim C10: when a data record's effective address equals an existing
chunk's start address and no chunk fuses with it, `data[address] =
recordData` overwrites that chunk's bytes with the record's bytes, leaving
every other chunk unchanged. -/
theorem overwrite_on_existing_address (m : ChunkMap) (addr : Nat)
    (bytes oldBytes : List Nat) (hsort : SortedMap m)
    (hmem : (addr, oldBytes) ∈ m)
    (hnofuse : ∀ p ∈ m, addr ≠ p.1 + p.2.length ∧ addr + bytes.length ≠ p.1) :
    insertRecordData m addr bytes =
      m.map (fun p => if p.1 = addr then (addr, bytes) else p) := by
  unfold insertRecordData
  rw [fuseScan_none m addr bytes hnofuse]
  exact mapInsert_replace m addr bytes oldBytes hsort hmem

theorem overwrite_on_existing_address_witness :
    insertRecordData [(0, [1]), (10, [2, 3])] 10 [9] = [(0, [1]), (10, [9])] := by
  rw [overwrite_on_existing_address [(0, [1]), (10, [2, 3])] 10 [9] [2, 3]
    (by decide) (by decide) (by decide)]
  decide

end HexFile
